import Mathlib

/-!
Verification of the CORD19SEARCHENGINE index-construction core.

This file gives a shallow embedding, in Lean 4, of the parts of the Python
source that the specification's claims speak about:

* byte-level little-endian u32 serialization (struct.pack / struct.unpack),
* the forward-index writer and loader
  (source/indexer/forward_index.py, source/indexer/inverted_index.py),
* the lexicon (source/indexer/lexicon.py, source/indexer/indexing.py),
* the bucketed inverter pipeline (shard / compact / k-way merge),
* its error handling on truncated inputs,
* the tokenizers (source/indexer/indexing.py and source/indexer/lexicon.py),
* the barrel assigner (source/indexer/barrels.py),
* the postings consolidator (scripts/build_postings_index.py),
* the ranker (source/search/ranking.py).

Files are modelled as lists of natural numbers (one per byte, each < 256);
Python dicts are modelled as association lists in insertion order; Python
sets of naturals are modelled by deduplicated lists.  Machine integers are
naturals with explicit bounds where overflow could matter (struct.pack with
format "<I" raises on values outside [0, 2^32), so serialization carries a
validity predicate instead of silent wrap-around).
-/

namespace Cord19

/-! ### Byte-level primitives -/

/-- Value of four bytes interpreted as a little-endian unsigned 32-bit
integer, as struct.unpack with format "<I" does. -/
def u32 (b0 b1 b2 b3 : ℕ) : ℕ :=
  b0 + 256 * b1 + 65536 * b2 + 16777216 * b3

/-- Little-endian 4-byte encoding of a natural number below 2^32, as
struct.pack with format "<I" produces. -/
def le4 (n : ℕ) : List ℕ :=
  [n % 256, n / 256 % 256, n / 65536 % 256, n / 16777216 % 256]

/-- Read one little-endian u32 from the front of a byte stream; none when
fewer than four bytes remain (struct.unpack raises in that case). -/
def readU32 : List ℕ → Option (ℕ × List ℕ)
  | b0 :: b1 :: b2 :: b3 :: rest => some (u32 b0 b1 b2 b3, rest)
  | _ => none

/-- Read k consecutive little-endian u32 values from the front of a byte
stream, as struct.unpack with format "<kI" does; none on a short read. -/
def readU32s : ℕ → List ℕ → Option (List ℕ × List ℕ)
  | 0, bytes => some ([], bytes)
  | k + 1, bytes =>
    match readU32 bytes with
    | none => none
    | some (v, rest) =>
      match readU32s k rest with
      | none => none
      | some (vs, rest2) => some (v :: vs, rest2)

/-! ### Forward index (source/indexer/forward_index.py `_serialize_forward_index`,
source/indexer/inverted_index.py `_load_forward_index`) -/

/-- Validity of a forward record list for struct.pack with format "<I":
every packed value fits in 32 bits.  struct.pack raises on any other value,
so only valid record lists can ever be serialized by the source. -/
def ValidRecords (records : List (ℕ × List ℕ)) : Prop :=
  records.length < 2 ^ 32 ∧
    ∀ r ∈ records, r.1 < 2 ^ 32 ∧ r.2.length < 2 ^ 32 ∧ ∀ t ∈ r.2, t < 2 ^ 32

instance (records : List (ℕ × List ℕ)) : Decidable (ValidRecords records) := by
  unfold ValidRecords; infer_instance

/-- Byte encoding of one forward record: doc_id, token_count, then the
token ids, mirroring the body of the write loop in
`_serialize_forward_index`. -/
def encodeForwardRecord (r : ℕ × List ℕ) : List ℕ :=
  le4 r.1 ++ le4 r.2.length ++ r.2.flatMap le4

/-- Serialization of the whole forward index: u32 doc_count followed by the
records, mirroring `_serialize_forward_index` in
source/indexer/forward_index.py (the identical copy in indexing.py included). -/
def serializeForwardIndex (records : List (ℕ × List ℕ)) : List ℕ :=
  le4 records.length ++ records.flatMap encodeForwardRecord

/-- Parse doc_count many records, each doc_id, token_count, token ids,
mirroring the loop of `_load_forward_index` in
source/indexer/inverted_index.py.  Returns the records and the unconsumed
bytes; none models the struct.error that unpack_from raises on a short
buffer. -/
def loadRecords : ℕ → List ℕ → Option (List (ℕ × List ℕ) × List ℕ)
  | 0, bytes => some ([], bytes)
  | n + 1, bytes =>
    match readU32 bytes with
    | none => none
    | some (docId, r1) =>
      match readU32 r1 with
      | none => none
      | some (tokenCount, r2) =>
        match readU32s tokenCount r2 with
        | none => none
        | some (tokenIds, r3) =>
          match loadRecords n r3 with
          | none => none
          | some (records, rest) => some ((docId, tokenIds) :: records, rest)

/-- Model of `_load_forward_index`: read the u32 doc_count header, then
doc_count records.  Trailing bytes after the declared records are ignored,
exactly as the offset-based unpack_from loop ignores them. -/
def loadForwardIndex (bytes : List ℕ) : Option (List (ℕ × List ℕ)) :=
  match readU32 bytes with
  | none => none
  | some (docCount, rest) =>
    match loadRecords docCount rest with
    | none => none
    | some (records, _) => some records

/-- Well-formedness of a forward_index.bin byte string: it is the
serialization of some record list that struct.pack accepts. -/
def WellFormedForward (bytes : List ℕ) : Prop :=
  ∃ records, ValidRecords records ∧ bytes = serializeForwardIndex records

/-! ### Lexicon (source/indexer/lexicon.py, duplicated in indexing.py) -/

/-- State of the Lexicon class: word2id is the token-to-id dict in
insertion order, id2word the id-to-token list. -/
structure Lexicon where
  word2id : List (String × ℕ)
  id2word : List String
deriving Repr, DecidableEq

/-- Model of `Lexicon.get_id`: return the id of the token, appending a
fresh id when absent and create_if_missing is set, and -1 when absent
otherwise.  Returns the result together with the updated state. -/
def getId (lex : Lexicon) (token : String) (createIfMissing : Bool) : Int × Lexicon :=
  match lex.word2id.lookup token with
  | some i => ((i : Int), lex)
  | none =>
    if createIfMissing then
      let tokenId := lex.id2word.length
      ((tokenId : Int),
        ⟨lex.word2id ++ [(token, tokenId)], lex.id2word ++ [token]⟩)
    else
      (-1, lex)

/-- UTF-8 encoding of a single character (RFC 3629), the byte sequence that
Python's str.encode with encoding utf-8 emits for it. -/
def utf8Enc (c : Char) : List ℕ :=
  let n := c.toNat
  if n < 128 then [n]
  else if n < 2048 then [192 + n / 64, 128 + n % 64]
  else if n < 65536 then [224 + n / 4096, 128 + n / 64 % 64, 128 + n % 64]
  else [240 + n / 262144, 128 + n / 4096 % 64, 128 + n / 64 % 64, 128 + n % 64]

/-- UTF-8 bytes of a token. -/
def utf8Bytes (s : String) : List ℕ :=
  s.data.flatMap utf8Enc

/-- Model of `Lexicon.write_binary`: u32 vocab_size, then for each token in
id order a u32 byte length, the UTF-8 bytes, and the u32 token_id produced
by enumerate (the record index). -/
def writeBinary (id2word : List String) : List ℕ :=
  le4 id2word.length ++
    id2word.enum.flatMap
      (fun p => le4 (utf8Bytes p.2).length ++ utf8Bytes p.2 ++ le4 p.1)

/-- Read vocab_size many lexicon records, each a u32 length, that many
bytes, and a trailing u32 token_id, following the record layout that
`find_token_id_in_lexicon` in scripts/query_demo.py walks.  Returns the
list of (token bytes, token_id) pairs. -/
def readLexiconRecords : ℕ → List ℕ → Option (List (List ℕ × ℕ) × List ℕ)
  | 0, bytes => some ([], bytes)
  | n + 1, bytes =>
    match readU32 bytes with
    | none => none
    | some (tokenLen, r1) =>
      if _h : tokenLen ≤ r1.length then
        let tokenBytes := r1.take tokenLen
        match readU32 (r1.drop tokenLen) with
        | none => none
        | some (tokenId, r2) =>
          match readLexiconRecords n r2 with
          | none => none
          | some (records, rest) => some ((tokenBytes, tokenId) :: records, rest)
      else none

/-- Parse a whole lexicon.bin image: u32 vocab_size then that many records. -/
def readLexicon (bytes : List ℕ) : Option (List (List ℕ × ℕ)) :=
  match readU32 bytes with
  | none => none
  | some (vocabSize, rest) =>
    match readLexiconRecords vocabSize rest with
    | none => none
    | some (records, _) => some records

/-- Validity of a lexicon for serialization: every encoded token fits the
u32 length prefix and the vocabulary fits the u32 header. -/
def ValidLexicon (id2word : List String) : Prop :=
  id2word.length < 2 ^ 32 ∧ ∀ s ∈ id2word, (utf8Bytes s).length < 2 ^ 32

instance (id2word : List String) : Decidable (ValidLexicon id2word) := by
  unfold ValidLexicon; infer_instance

/-! ### Sorting helpers

Python's built-in sorted is a stable sort.  The insertion sort below places
an element before the first existing element that it may precede, so
sorting a list front-to-back keeps the original relative order of
elements that compare equal, exactly like Python's sorted. -/

/-- Insert an element into a list, before the first element b with le a b. -/
def insertOrd (le : α → α → Bool) (a : α) : List α → List α
  | [] => [a]
  | b :: bs => if le a b then a :: b :: bs else b :: insertOrd le a bs

/-- Stable insertion sort by the boolean comparison le. -/
def sortOrd (le : α → α → Bool) : List α → List α
  | [] => []
  | a :: as => insertOrd le a (sortOrd le as)

/-- Ascending sort of a list of naturals, modelling Python's sorted applied
to ints. -/
def sortAsc (l : List ℕ) : List ℕ :=
  sortOrd (fun a b => decide (a ≤ b)) l

/-! ### Bucketed inverter (source/indexer/inverted_index.py)

The shard pass emits one (token_id, doc_id) pair per token occurrence and
appends it to bucket token_id mod B; the compact pass deduplicates each
bucket into per-token sorted doc lists; the merge pass interleaves the
compact bucket streams by ascending token_id. -/

/-- Pass 1 of `build_inverted_index`: the (token_id, doc_id) pair stream
emitted while streaming the forward records, in emission order. -/
def forwardPairs (records : List (ℕ × List ℕ)) : List (ℕ × ℕ) :=
  records.flatMap (fun r => r.2.map (fun t => (t, r.1)))

/-- Contents of bucket b: the pairs whose token_id is congruent to b
modulo the bucket count, in emission order. -/
def bucketOf (numBuckets : ℕ) (pairs : List (ℕ × ℕ)) (b : ℕ) : List (ℕ × ℕ) :=
  pairs.filter (fun p => decide (p.1 % numBuckets = b))

/-- Doc ids paired with token t in a pair stream, first occurrences only:
the Python set postings[token_id] of `_compact_bucket`, listed in insertion
order before sorting. -/
def docsFor (pairs : List (ℕ × ℕ)) (t : ℕ) : List ℕ :=
  ((pairs.filter (fun p => decide (p.1 = t))).map Prod.snd).dedup

/-- Distinct token ids of a bucket in ascending order: the sorted(postings)
iteration of `_compact_bucket`. -/
def bucketTokens (pairs : List (ℕ × ℕ)) : List ℕ :=
  sortAsc ((pairs.map Prod.fst).dedup)

/-- Model of `_compact_bucket`: one (token_id, sorted deduplicated doc_ids)
record per distinct token of the bucket, tokens ascending. -/
def compactBucket (pairs : List (ℕ × ℕ)) : List (ℕ × List ℕ) :=
  (bucketTokens pairs).map (fun t => (t, sortAsc (docsFor pairs t)))

/-- Heap-order comparison used by `_merge_bucket_streams`: Python's heapq
compares the (token_id, bucket_idx, doc_ids) tuples lexicographically, and
the doc_ids component is never reached because no two live entries share
both token_id and bucket index. -/
def heapKeyLt (a b : ℕ × ℕ × List ℕ) : Bool :=
  decide (a.1 < b.1) || (decide (a.1 = b.1) && decide (a.2.1 < b.2.1))

/-- Smallest entry of the heap (none when empty). -/
def heapMin : List (ℕ × ℕ × List ℕ) → Option (ℕ × ℕ × List ℕ)
  | [] => none
  | e :: es => some (es.foldl (fun acc x => if heapKeyLt x acc then x else acc) e)

/-- Total number of records remaining across all open streams. -/
def totalLen (streams : List (List α)) : ℕ :=
  (streams.map List.length).sum

/-- Model of the while-loop of `_merge_bucket_streams`: pop the smallest
(token_id, bucket_idx, doc_ids) entry, append its record to the output,
and refill the heap from the popped entry's stream.  Every iteration of
the Python loop consumes one record overall, so the loop terminates; the
explicit fuel argument is an upper bound on the number of iterations that
makes the recursion structural, and callers pass at least the total number
of records so the loop never stops early. -/
def mergeLoop : ℕ → List (List (ℕ × List ℕ)) → List (ℕ × ℕ × List ℕ) → List (ℕ × List ℕ)
  | 0, _, _ => []
  | fuel + 1, streams, heap =>
    match heapMin heap with
    | none => []
    | some e =>
      (e.1, e.2.2) ::
        match streams[e.2.1]? with
        | some (r :: rest) =>
          mergeLoop fuel (streams.set e.2.1 rest) ((r.1, e.2.1, r.2) :: heap.erase e)
        | _ => mergeLoop fuel streams (heap.erase e)

/-- Model of `_merge_bucket_streams`: prime the heap with the first record
of every non-empty compact bucket stream, then run the merge loop. -/
def mergeBucketStreams (buckets : List (List (ℕ × List ℕ))) : List (ℕ × List ℕ) :=
  mergeLoop (totalLen buckets + buckets.length)
    (buckets.map List.tail)
    (buckets.enum.filterMap (fun p => p.2.head?.map (fun r => (r.1, p.1, r.2))))

/-- Record-level model of `build_inverted_index`: shard the forward pairs
into numBuckets buckets, compact each bucket, and merge the compact
streams.  The byte-level reading of forward_index.bin is modelled
separately for the error-handling claims. -/
def buildInvertedRecords (records : List (ℕ × List ℕ)) (numBuckets : ℕ) :
    List (ℕ × List ℕ) :=
  mergeBucketStreams
    ((List.range numBuckets).map
      (fun b => compactBucket (bucketOf numBuckets (forwardPairs records) b)))

/-! ### Byte-level error handling of the inverter (C5)

source/indexer/inverted_index.py raises RuntimeError on every truncated
read; the duplicated `_compact_bucket` in source/indexer/indexing.py
instead breaks out of its read loop on a short chunk. -/

/-- Read loop of `_compact_bucket` in source/indexer/inverted_index.py:
consume (token_id, doc_id) pairs eight bytes at a time; a leftover chunk
of one to seven bytes raises RuntimeError (Bucket is truncated). -/
def invReadPairs : List ℕ → Except String (List (ℕ × ℕ))
  | [] => .ok []
  | b0 :: b1 :: b2 :: b3 :: b4 :: b5 :: b6 :: b7 :: rest =>
    match invReadPairs rest with
    | .error e => .error e
    | .ok ps => .ok ((u32 b0 b1 b2 b3, u32 b4 b5 b6 b7) :: ps)
  | _ => .error "Bucket is truncated"

/-- Model of `_compact_bucket` in source/indexer/inverted_index.py at the
byte level: read all pairs (fatally on truncation), then emit the
compacted per-token postings. -/
def invCompactBucket (bytes : List ℕ) : Except String (List (ℕ × List ℕ)) :=
  match invReadPairs bytes with
  | .error e => .error e
  | .ok pairs => .ok (compactBucket pairs)

/-- Read loop of the duplicated `_compact_bucket` in
source/indexer/indexing.py: a trailing chunk of one to seven bytes hits
the break statement, silently ending the loop. -/
def indexingReadPairs : List ℕ → List (ℕ × ℕ)
  | b0 :: b1 :: b2 :: b3 :: b4 :: b5 :: b6 :: b7 :: rest =>
    (u32 b0 b1 b2 b3, u32 b4 b5 b6 b7) :: indexingReadPairs rest
  | _ => []

/-- Model of `_compact_bucket` in source/indexer/indexing.py: same
compaction, but truncated input is consumed without error. -/
def indexingCompactBucket (bytes : List ℕ) : List (ℕ × List ℕ) :=
  compactBucket (indexingReadPairs bytes)

/-- Model of `_read_bucket_record` in source/indexer/inverted_index.py:
ok none at end of stream, RuntimeError on a short header or a short
doc_id payload, otherwise one (token_id, doc_ids) record plus the rest of
the stream. -/
def readBucketRecord (bytes : List ℕ) : Except String (Option ((ℕ × List ℕ) × List ℕ)) :=
  if bytes = [] then .ok none
  else
    match readU32 bytes with
    | none => .error "Bucket stream ended unexpectedly while reading header"
    | some (tokenId, r1) =>
      match readU32 r1 with
      | none => .error "Bucket stream ended unexpectedly while reading header"
      | some (docFreq, r2) =>
        match readU32s docFreq r2 with
        | none => .error "Bucket stream truncated while reading doc IDs"
        | some (docIds, rest) => .ok (some ((tokenId, docIds), rest))

/-- Document-reading loop of `build_inverted_index` in
source/indexer/inverted_index.py: read exactly the declared number of
documents, raising RuntimeError on a short document header or short token
payload. -/
def readDocsStrict : ℕ → List ℕ → Except String (List (ℕ × List ℕ))
  | 0, _ => .ok []
  | n + 1, bytes =>
    match readU32 bytes with
    | none => .error "Forward index truncated while reading document header."
    | some (docId, r1) =>
      match readU32 r1 with
      | none => .error "Forward index truncated while reading document header."
      | some (tokenCount, r2) =>
        match readU32s tokenCount r2 with
        | none => .error "Forward index truncated while reading token IDs."
        | some (tokenIds, r3) =>
          match readDocsStrict n r3 with
          | .error e => .error e
          | .ok records => .ok ((docId, tokenIds) :: records)

/-- Header phase of `build_inverted_index` in
source/indexer/inverted_index.py: a missing header, a zero doc_count, or
truncation inside the declared records is fatal.  The post-loop doc-count
mismatch check of the source is unreachable because the loop itself runs
exactly doc_count times, raising on any shortfall, which is how a declared
doc_count that exceeds the records present surfaces as RuntimeError. -/
def buildInvertedShard (bytes : List ℕ) : Except String (ℕ × List (ℕ × List ℕ)) :=
  match readU32 bytes with
  | none => .error "Forward index is empty or corrupted."
  | some (expectedDocs, rest) =>
    if expectedDocs = 0 then
      .error "Forward index is empty; cannot build inverted index."
    else
      match readDocsStrict expectedDocs rest with
      | .error e => .error e
      | .ok records => .ok (expectedDocs, records)

/-! ### Tokenizers (source/indexer/indexing.py `tokenize` and
source/indexer/lexicon.py `tokenize`)

Unicode library calls are modelled on the character repertoire this
development exercises: for these characters NFKC acts characterwise (each
has a singleton compatibility decomposition and no combining
interactions), so the normalization is a character-to-characters map. -/

/-- Model of str.lower on the characters used here: ASCII upper case maps
down by 32; the precomposed letters of scenario S4 map to their lower-case
forms; everything else is fixed. -/
def pyLowerChar (c : Char) : Char :=
  if 'A' ≤ c ∧ c ≤ 'Z' then Char.ofNat (c.toNat + 32)
  else if c = 'Å' then 'å'
  else if c = 'Ö' then 'ö'
  else c

/-- Model of unicodedata.normalize applied with form NFKC, restricted to
the characters used here: the circled digit one decomposes to the plain
digit 1; the other characters are NFKC-fixed. -/
def pyNFKCChar (c : Char) : List Char :=
  if c = '①' then ['1'] else [c]

/-- NFKC normalization of a character stream. -/
def pyNFKC (s : List Char) : List Char :=
  s.flatMap pyNFKCChar

/-- Lower-casing of a character stream. -/
def pyLower (s : List Char) : List Char :=
  s.map pyLowerChar

/-- Model of str.isalnum on the characters used here: ASCII letters and
digits together with the letters å, ö, Å, Ö are alphanumeric; whitespace
and punctuation are not. -/
def pyIsAlnum (c : Char) : Bool :=
  decide (('a' ≤ c ∧ c ≤ 'z') ∨ ('A' ≤ c ∧ c ≤ 'Z') ∨ ('0' ≤ c ∧ c ≤ '9') ∨
    c = 'å' ∨ c = 'ö' ∨ c = 'Å' ∨ c = 'Ö')

/-- Flush step of the tokenize loop in source/indexer/indexing.py: a
non-empty accumulated run that is not a stopword is appended to the token
list. -/
def flushAcc (stop : List (List Char)) (current : List Char)
    (tokens : List (List Char)) : List (List Char) :=
  if current = [] then tokens
  else if current ∈ stop then tokens
  else tokens ++ [current]

/-- Character loop of tokenize in source/indexer/indexing.py: accumulate
characters satisfying p into the current run and flush on any other
character, with a final flush at the end of the text.  The predicate p is
a parameter so that the same loop also serves as the run extractor of
re.findall for the lexicon-module tokenizer. -/
def tokLoop (p : Char → Bool) (stop : List (List Char)) :
    List Char → List Char → List (List Char) → List (List Char)
  | [], current, tokens => flushAcc stop current tokens
  | c :: cs, current, tokens =>
    if p c then tokLoop p stop cs (current ++ [c]) tokens
    else tokLoop p stop cs [] (flushAcc stop current tokens)

/-- Model of tokenize in source/indexer/indexing.py: NFKC-normalize, fold
to lower case, then emit maximal alphanumeric runs that are not
stopwords. -/
def pyTokenize (text : List Char) (stop : List (List Char)) : List (List Char) :=
  tokLoop pyIsAlnum stop (pyLower (pyNFKC text)) [] []

/-- ASCII character class of the TOKEN_RE pattern [a-z0-9]+ in
source/indexer/lexicon.py. -/
def asciiAlnumLower (c : Char) : Bool :=
  decide (('a' ≤ c ∧ c ≤ 'z') ∨ ('0' ≤ c ∧ c ≤ '9'))

/-- Model of tokenize in source/indexer/lexicon.py:
re.findall of the pattern [a-z0-9]+ over text.lower() returns the maximal
runs of that ASCII character class, which the shared run-accumulator loop
computes (the theorem relating the loop to the independent maximal-run
function justifies the identification); the list comprehension then drops
stopwords.  No NFKC normalization is applied. -/
def lexTokenize (text : List Char) (stop : List (List Char)) : List (List Char) :=
  tokLoop asciiAlnumLower stop (text.map pyLowerChar) [] []

/-- Maximal runs of characters satisfying p, written independently of the
accumulator loop: a run starts at a character satisfying p, extends as far
as p holds, and the scan resumes past it. -/
def runsSpec (p : Char → Bool) : List Char → List (List Char)
  | [] => []
  | c :: cs =>
    if p c then (c :: cs.takeWhile p) :: runsSpec p (cs.dropWhile p)
    else runsSpec p cs
  termination_by l => l.length
  decreasing_by
    · simp only [List.length_cons]
      exact Nat.lt_succ_of_le (@List.dropWhile_sublist _ cs p).length_le
    · simp

/-- Character list of the string of scenario S4 in the specification. -/
def s4Text : List Char :=
  ['Å', 'n', 'g', 's', 't', 'r', 'ö', 'm', ' ', '①']

/-! ### Barrel assigner (source/indexer/barrels.py `BarrelAssigner.analyze`)

The frequent_threshold parameter is a nonnegative rational given as a
numerator/denominator pair (the default 0.05 is 1/20); for a nonnegative
value, Python's int() truncation equals the floor, and the floor of
totalDocs * num / den is natural division.  The float expression
int((idx / total_remaining) ** 0.6 * num_barrels) is modelled with exact
real arithmetic: 0.6 = 3/5, and for naturals k, i, R, N one has
k ≤ N * (i / R) ^ (3 / 5) iff k^5 * R^3 ≤ N^5 * i^3 (raise both sides to
the fifth power), so the floor is the greatest such k. -/

/-- Model of threshold_docs = max(1, int(total_docs * frequent_threshold)). -/
def thresholdDocs (totalDocs num den : ℕ) : ℕ :=
  max 1 (totalDocs * num / den)

/-- Model of int((i / R) ** 0.6 * N) in exact real arithmetic: the
greatest k with k^5 * R^3 ≤ N^5 * i^3, which equals the floor of
N * (i / R) ^ (3/5) whenever R > 0 (and the ranks i used are below R, so
the value is at most N and the search bound N suffices). -/
def concaveBarrel (i R N : ℕ) : ℕ :=
  Nat.findGreatest (fun k => k ^ 5 * R ^ 3 ≤ N ^ 5 * i ^ 3) N

/-- Model of sorted(self.token_doc_counts.items(), key=lambda kv: kv[1]):
stable ascending sort by doc count, ties kept in dict insertion order. -/
def sortByCount (counts : List (ℕ × ℕ)) : List (ℕ × ℕ) :=
  sortOrd (fun a b => decide (a.2 ≤ b.2)) counts

/-- Model of the set comprehension frequent_ids of `BarrelAssigner.analyze`:
tokens whose doc count reaches the threshold. -/
def analyzeFrequentIds (totalDocs num den : ℕ) (counts : List (ℕ × ℕ)) : List ℕ :=
  ((sortByCount counts).filter
    (fun p => decide (thresholdDocs totalDocs num den ≤ p.2))).map Prod.fst

/-- Model of the remaining list of `BarrelAssigner.analyze`: the stable
count-sorted tokens that are not frequent ids. -/
def analyzeRemainingSrc (totalDocs num den : ℕ) (counts : List (ℕ × ℕ)) :
    List (ℕ × ℕ) :=
  (sortByCount counts).filter
    (fun p => decide (p.1 ∉ analyzeFrequentIds totalDocs num den counts))

/-- Model of `BarrelAssigner.analyze`: the token_to_barrel dict contents
as an association list.  Tokens whose doc count reaches the threshold go
to the special frequent barrel (id numBarrels); the remaining tokens, in
stable ascending doc-count order, go to
min(numBarrels - 1, concaveBarrel rank remaining_count numBarrels).
The frequent ids are inserted before the remaining loop runs, and the two
key sets are disjoint, so the final dict is the concatenation. -/
def analyze (numBarrels totalDocs num den : ℕ) (counts : List (ℕ × ℕ)) :
    List (ℕ × ℕ) :=
  (analyzeFrequentIds totalDocs num den counts).map (fun tid => (tid, numBarrels)) ++
    (analyzeRemainingSrc totalDocs num den counts).enum.map
      (fun p => (p.2.1, min (numBarrels - 1)
        (concaveBarrel p.1 (analyzeRemainingSrc totalDocs num den counts).length
          numBarrels)))

/-- Rank order that the claim asserts for the non-frequent tokens:
ascending doc count with ties broken by ascending token_id. -/
def sortByCountTid (counts : List (ℕ × ℕ)) : List (ℕ × ℕ) :=
  sortOrd (fun a b => decide (a.2 < b.2 ∨ (a.2 = b.2 ∧ a.1 ≤ b.1))) counts

/-- Assignment following the claim's words (tie-break by token_id), to be
compared with the analyze of the source; it differs from analyze only in
the sort used for the remaining tokens. -/
def analyzeClaim (numBarrels totalDocs num den : ℕ) (counts : List (ℕ × ℕ)) :
    List (ℕ × ℕ) :=
  let sortedTokens := sortByCountTid counts
  let thr := thresholdDocs totalDocs num den
  let frequentIds := (sortedTokens.filter (fun p => decide (thr ≤ p.2))).map Prod.fst
  let remaining := sortedTokens.filter (fun p => decide (p.1 ∉ frequentIds))
  frequentIds.map (fun tid => (tid, numBarrels)) ++
    remaining.enum.map
      (fun p => (p.2.1, min (numBarrels - 1) (concaveBarrel p.1 remaining.length numBarrels)))

/-- Rank list of the non-frequent tokens of analyze: the stable
count-sorted tokens whose count is below the threshold.  Inside analyze
the remaining tokens are instead obtained by filtering out members of
frequent_ids; for a dict input (distinct token keys) the two agree, which
the assignment theorem proves. -/
def analyzeRemaining (totalDocs num den : ℕ) (counts : List (ℕ × ℕ)) :
    List (ℕ × ℕ) :=
  (sortByCount counts).filter (fun p => decide (p.2 < thresholdDocs totalDocs num den))

/-! ### Postings consolidator (scripts/build_postings_index.py)

A barrel record is (token_id, doc_id, freq, positions); its payload within
a token's block is (doc_id, freq, positions).  The per-token dicts of
`scan_barrels` are modelled as total functions defaulting to the empty
list and zero, which is defaultdict behaviour; a token's spill file is
modelled by the record list appended to it. -/

/-- Tunable PER_TOKEN_INMEM_THRESHOLD of scripts/build_postings_index.py. -/
def PER_TOKEN_INMEM_THRESHOLD : ℕ := 1024

/-- Accumulation state of `scan_barrels`: per-token in-memory postings,
per-token spill-file contents and spilled-record count, the number of
spill operations performed per token, and the seen-token list. -/
structure ScanState where
  inmem : ℕ → List (ℕ × ℕ × List ℕ)
  diskRecs : ℕ → List (ℕ × ℕ × List ℕ)
  diskCount : ℕ → ℕ
  spillOps : ℕ → ℕ
  seen : List ℕ

/-- One iteration of the scan loop of `scan_barrels`: append the record's
payload to its token's in-memory list; when that list reaches the
threshold, append it to the token's spill file, add its length to
disk_count, count the spill, and clear the list. -/
def scanStep (threshold : ℕ) (st : ScanState) (r : ℕ × ℕ × ℕ × List ℕ) : ScanState :=
  let token := r.1
  let newList := st.inmem token ++ [r.2]
  let seen1 := if token ∈ st.seen then st.seen else st.seen ++ [token]
  if threshold ≤ newList.length then
    ⟨fun t => if t = token then [] else st.inmem t,
      fun t => if t = token then st.diskRecs token ++ newList else st.diskRecs t,
      fun t => if t = token then st.diskCount token + newList.length else st.diskCount t,
      fun t => if t = token then st.spillOps token + 1 else st.spillOps t,
      seen1⟩
  else
    ⟨fun t => if t = token then newList else st.inmem t,
      st.diskRecs, st.diskCount, st.spillOps, seen1⟩

/-- Model of `scan_barrels` over the concatenated record stream of all
barrel files in scan order. -/
def scanBarrels (threshold : ℕ) (rs : List (ℕ × ℕ × ℕ × List ℕ)) : ScanState :=
  rs.foldl (scanStep threshold) ⟨fun _ => [], fun _ => [], fun _ => 0, fun _ => 0, []⟩

/-- Byte serialization of one postings payload (doc_id, freq, positions):
u32 doc_id, u32 freq, u32 positions_count, then the positions, as both the
spill writer and the write phase emit it. -/
def serializePostRec (r : ℕ × ℕ × List ℕ) : List ℕ :=
  le4 r.1 ++ le4 r.2.1 ++ le4 r.2.2.length ++ r.2.2.flatMap le4

/-- Consolidated block of one token in postings_index.bin, as
`write_postings_index` emits it: u32 total_count (disk_count plus the
in-memory tail), the spill-file records streamed verbatim, then the
in-memory tail records.  The write phase skips tokens with total zero;
the claims evaluate it only on tokens that hold records. -/
def writeBlock (threshold : ℕ) (rs : List (ℕ × ℕ × ℕ × List ℕ)) (token : ℕ) :
    List ℕ :=
  le4 ((scanBarrels threshold rs).diskCount token +
      ((scanBarrels threshold rs).inmem token).length) ++
    ((scanBarrels threshold rs).diskRecs token).flatMap serializePostRec ++
    ((scanBarrels threshold rs).inmem token).flatMap serializePostRec

/-! ### Ranker (source/search/ranking.py)

Hit lists are lists of naturals whose low decimal digit encodes the field.
With intersections absent (None or empty), the multiplier is 1 and no
intersection bonus applies, so rank_docs reduces to the per-document score
loop followed by the stable descending sort. -/

/-- Flags of the added list of rank_docs (indices 0, 2, 3, 5; indices 1
and 4 are never read). -/
structure Flags where
  title : Bool
  url : Bool
  authors : Bool
  tags : Bool
deriving DecidableEq

/-- Field-specific bonus chain of rank_docs for one hit: title +50,
url +30, authors +20, tags +30, each guarded by its added flag; body text
(1) and unknown field codes add nothing. -/
def bonusStep (hit : ℕ) (score : ℕ) (fl : Flags) : ℕ × Flags :=
  if hit % 10 = 0 then
    if fl.title then (score, fl) else (score + 50, ⟨true, fl.url, fl.authors, fl.tags⟩)
  else if hit % 10 = 2 then
    if fl.url then (score, fl) else (score + 30, ⟨fl.title, true, fl.authors, fl.tags⟩)
  else if hit % 10 = 3 then
    if fl.authors then (score, fl) else (score + 20, ⟨fl.title, fl.url, true, fl.tags⟩)
  else if hit % 10 = 5 then
    if fl.tags then (score, fl) else (score + 30, ⟨fl.title, fl.url, fl.authors, true⟩)
  else (score, fl)

/-- Directional while-loop of rank_docs: process the hit at index i, and
on a body-text hit either jump to the last index and turn around (first
time) or stop (second time); otherwise move by step.  Every iteration of
the Python loop moves i monotonically within each direction, so at most
2 * len + 2 iterations run; the explicit fuel argument is an upper bound
making the recursion structural, and the caller passes enough that the
loop never stops early. -/
def rankLoop (hits : List ℕ) : ℕ → Int → Int → ℕ → Flags → ℕ
  | 0, _, _, score, _ => score
  | fuel + 1, i, step, score, fl =>
    if 0 ≤ i ∧ i < (hits.length : Int) then
      if (hits.getD i.toNat 0) % 10 = 1 then
        if step = 1 then
          rankLoop hits fuel ((hits.length : Int) - 1) (-1)
            (bonusStep (hits.getD i.toNat 0) score fl).1
            (bonusStep (hits.getD i.toNat 0) score fl).2
        else (bonusStep (hits.getD i.toNat 0) score fl).1
      else
        rankLoop hits fuel (i + step) step
          (bonusStep (hits.getD i.toNat 0) score fl).1
          (bonusStep (hits.getD i.toNat 0) score fl).2
    else score

/-- Per-document score of rank_docs when intersections is None: the base
score min(len(hit_list), 20), then the directional bonus loop from index 0
going forward; the multiplier is 1 and the intersection bonus absent. -/
def docScore (hits : List ℕ) : ℕ :=
  rankLoop hits (2 * hits.length + 4) 0 1 (min hits.length 20)
    ⟨false, false, false, false⟩

/-- Stable descending sort by score: Python's sorted with reverse True
keeps the original relative order of equal scores. -/
def pySortDesc (l : List (ℕ × ℕ)) : List (ℕ × ℕ) :=
  sortOrd (fun a b => decide (b.1 ≤ a.1)) l

/-- Model of rank_docs with intersections None: score every
(doc_id, hit_list) pair and sort the (score, doc_id) pairs by score
descending. -/
def rank_docs (docs : List (ℕ × List ℕ)) : List (ℕ × ℕ) :=
  pySortDesc (docs.map (fun d => (docScore d.2, d.1)))

/-- Body-text test on a hit. -/
def isText (h : ℕ) : Bool :=
  decide (h % 10 = 1)

/-- Bonus accumulator over a list of hits in order. -/
def applyB (l : List ℕ) (score : ℕ) (fl : Flags) : ℕ × Flags :=
  l.foldl (fun acc h => bonusStep h acc.1 acc.2) (score, fl)

/-- Region of the hit list that the directional loop actually visits: the
maximal non-text prefix, and, when a body-text hit exists, the maximal
non-text suffix (scanned backwards from the end). -/
def scanRegion (hits : List ℕ) : List ℕ :=
  hits.takeWhile (fun h => !isText h) ++
    (if hits.any isText then hits.reverse.takeWhile (fun h => !isText h) else [])

/-- Field bonuses collected over a region, one per field at most. -/
def fieldBonus (region : List ℕ) : ℕ :=
  (if region.any (fun h => decide (h % 10 = 0)) then 50 else 0) +
    ((if region.any (fun h => decide (h % 10 = 2)) then 30 else 0) +
      ((if region.any (fun h => decide (h % 10 = 3)) then 20 else 0) +
        (if region.any (fun h => decide (h % 10 = 5)) then 30 else 0)))

/-- Score that the directional loop computes, written without the loop:
capped base plus one bonus per field occurring in the visited region. -/
def docScoreSpec (hits : List ℕ) : ℕ :=
  min hits.length 20 + fieldBonus (scanRegion hits)

/-- Model of is_relevant: empty hit lists are irrelevant; otherwise the
first and the last hit are inspected, and nothing else. -/
def is_relevant : List ℕ → Bool
  | [] => false
  | a :: l =>
    if a % 10 ≠ 1 then true
    else if (List.getLast (a :: l) (List.cons_ne_nil a l)) % 10 ≠ 1 then true
    else false

end Cord19

namespace Cord19

/-! ## Theorems -/

/-! ### Byte-level round trips -/

theorem readU32_le4 (n : ℕ) (hn : n < 2 ^ 32) (rest : List ℕ) :
    readU32 (le4 n ++ rest) = some (n, rest) := by
  simp only [le4, List.cons_append, List.nil_append, readU32, u32]
  congr 2
  omega

theorem readU32s_flatMap_le4 (tokens : List ℕ) (htokens : ∀ t ∈ tokens, t < 2 ^ 32)
    (rest : List ℕ) :
    readU32s tokens.length (tokens.flatMap le4 ++ rest) = some (tokens, rest) := by
  induction tokens with
  | nil => simp [readU32s]
  | cons t ts ih =>
    have ht : t < 2 ^ 32 := htokens t (by simp)
    simp only [List.flatMap_cons, List.length_cons, List.append_assoc, readU32s,
      readU32_le4 t ht]
    rw [ih (fun x hx => htokens x (by simp [hx]))]

theorem loadRecords_append (records : List (ℕ × List ℕ)) (h : ValidRecords records)
    (rest : List ℕ) :
    loadRecords records.length (records.flatMap encodeForwardRecord ++ rest) =
      some (records, rest) := by
  induction records with
  | nil => simp [loadRecords]
  | cons r rs ih =>
    obtain ⟨hlen, hall⟩ := h
    obtain ⟨h1, h2, h3⟩ := hall r (by simp)
    simp only [List.flatMap_cons, List.length_cons, encodeForwardRecord,
      List.append_assoc, loadRecords, readU32_le4 r.1 h1, readU32_le4 r.2.length h2,
      readU32s_flatMap_le4 r.2 h3]
    rw [ih ⟨by simp only [List.length_cons] at hlen; omega,
      fun x hx => hall x (by simp [hx])⟩]

/-- C8 auxiliary: parsing the serialization of a valid record list recovers
exactly that record list. -/
theorem loadForwardIndex_serialize (records : List (ℕ × List ℕ))
    (h : ValidRecords records) :
    loadForwardIndex (serializeForwardIndex records) = some records := by
  simp only [loadForwardIndex, serializeForwardIndex,
    readU32_le4 records.length h.1]
  rw [show records.flatMap encodeForwardRecord =
        records.flatMap encodeForwardRecord ++ [] by simp,
    loadRecords_append records h]

/-- C8: for every well-formed forward_index.bin byte string, the records
that `_load_forward_index` parses out of it re-serialize, via
`_serialize_forward_index`, to the identical byte string. -/
theorem forward_roundtrip (bytes : List ℕ) (h : WellFormedForward bytes) :
    ∃ records, loadForwardIndex bytes = some records ∧
      serializeForwardIndex records = bytes := by
  obtain ⟨records, hvalid, rfl⟩ := h
  exact ⟨records, loadForwardIndex_serialize records hvalid, rfl⟩

/-- C8 witness: the round trip evaluated on a concrete two-document forward
index. -/
theorem forward_roundtrip_witness :
    WellFormedForward (serializeForwardIndex [(0, [1, 2]), (1, [])]) ∧
      ∃ records,
        loadForwardIndex (serializeForwardIndex [(0, [1, 2]), (1, [])]) =
          some records ∧
        serializeForwardIndex records =
          serializeForwardIndex [(0, [1, 2]), (1, [])] := by
  have hwf : WellFormedForward (serializeForwardIndex [(0, [1, 2]), (1, [])]) :=
    ⟨[(0, [1, 2]), (1, [])], by decide, rfl⟩
  exact ⟨hwf, forward_roundtrip _ hwf⟩

/-! ### Lexicon get_id (C9) -/

/-- C9: with create_if_missing set to false, `Lexicon.get_id` returns -1 on
an absent token and leaves both structures unchanged; on a present token it
returns the stored id and, for either value of create_if_missing, changes
nothing. -/
theorem getId_no_create (lex : Lexicon) (token : String) :
    (lex.word2id.lookup token = none → getId lex token false = (-1, lex)) ∧
      (∀ i, lex.word2id.lookup token = some i →
        ∀ c, getId lex token c = ((i : Int), lex)) := by
  constructor
  · intro h
    simp [getId, h]
  · intro i h c
    simp [getId, h]

/-- C9 witness: get_id evaluated on a concrete lexicon holding the token
virus at id 0, both for an absent and for a present token. -/
theorem getId_no_create_witness :
    ((Lexicon.mk [("virus", 0)] ["virus"]).word2id.lookup "cell" = none ∧
      getId (Lexicon.mk [("virus", 0)] ["virus"]) "cell" false =
        (-1, Lexicon.mk [("virus", 0)] ["virus"])) ∧
    ((Lexicon.mk [("virus", 0)] ["virus"]).word2id.lookup "virus" = some 0 ∧
      getId (Lexicon.mk [("virus", 0)] ["virus"]) "virus" false =
        ((0 : Int), Lexicon.mk [("virus", 0)] ["virus"])) := by
  refine ⟨⟨by decide, ?_⟩, ⟨by decide, ?_⟩⟩
  · exact (getId_no_create (Lexicon.mk [("virus", 0)] ["virus"]) "cell").1 (by decide)
  · exact (getId_no_create (Lexicon.mk [("virus", 0)] ["virus"]) "virus").2 0 (by decide) false

/-! ### Lexicon serialization (C7) -/

theorem readLexiconRecords_encode (l : List String) (n : ℕ)
    (hs : ∀ s ∈ l, (utf8Bytes s).length < 2 ^ 32) (hn : n + l.length ≤ 2 ^ 32)
    (rest : List ℕ) :
    readLexiconRecords l.length
        ((List.enumFrom n l).flatMap
          (fun p => le4 (utf8Bytes p.2).length ++ utf8Bytes p.2 ++ le4 p.1) ++ rest) =
      some ((List.enumFrom n l).map (fun p => (utf8Bytes p.2, p.1)), rest) := by
  induction l generalizing n with
  | nil => simp [readLexiconRecords]
  | cons s ss ih =>
    have h1 : (utf8Bytes s).length < 2 ^ 32 := hs s (by simp)
    have h2 : n < 2 ^ 32 := by simp only [List.length_cons] at hn; omega
    have h3 : ∀ x ∈ ss, (utf8Bytes x).length < 2 ^ 32 :=
      fun x hx => hs x (List.mem_cons_of_mem s hx)
    have h4 : n + 1 + ss.length ≤ 2 ^ 32 := by
      simp only [List.length_cons] at hn; omega
    simp only [List.append_assoc] at ih
    simp only [List.enumFrom_cons, List.flatMap_cons, List.length_cons,
      List.append_assoc, readLexiconRecords, readU32_le4 (utf8Bytes s).length h1]
    rw [dif_pos (by simp)]
    rw [List.drop_left, readU32_le4 n h2]
    simp only [ih (n + 1) h3 h4, List.take_left, List.map_cons]

/-- C7: `Lexicon.write_binary` produces a little-endian u32 vocab_size
followed by, for each token in id order, a u32 byte length, the UTF-8
bytes of the token, and a trailing u32 token_id; parsing the image back
shows that the k-th record (counting from 0) always stores token_id = k. -/
theorem write_binary_layout (id2word : List String) (h : ValidLexicon id2word) :
    readLexicon (writeBinary id2word) =
        some (id2word.enum.map (fun p => (utf8Bytes p.2, p.1))) ∧
      ∀ k, k < id2word.length →
        (id2word.enum.map (fun p => (utf8Bytes p.2, p.1)))[k]?.map Prod.snd =
          some k := by
  constructor
  · simp only [readLexicon, writeBinary, readU32_le4 id2word.length h.1]
    have h0 := readLexiconRecords_encode id2word 0 h.2 (by have h1 := h.1; omega) []
    simp only [List.append_nil] at h0
    simp only [List.enum]
    rw [h0]
  · intro k hk
    have : (id2word.enum)[k]? = id2word[k]?.map fun a => (k, a) := by
      simp [List.getElem?_enum]
    have hsome : ∃ a, id2word[k]? = some a :=
      ⟨id2word[k], List.getElem?_eq_getElem hk⟩
    obtain ⟨a, ha⟩ := hsome
    simp [List.getElem?_map, this, ha]

/-- C7 witness: the layout theorem evaluated on the two-token lexicon
virus, cell. -/
theorem write_binary_layout_witness :
    ValidLexicon ["virus", "cell"] ∧
      readLexicon (writeBinary ["virus", "cell"]) =
        some ((["virus", "cell"] : List String).enum.map
          (fun p => (utf8Bytes p.2, p.1))) ∧
      1 < (["virus", "cell"] : List String).length ∧
      ((["virus", "cell"] : List String).enum.map
          (fun p => (utf8Bytes p.2, p.1)))[1]?.map Prod.snd = some 1 := by
  have hv : ValidLexicon ["virus", "cell"] := by decide
  have := write_binary_layout ["virus", "cell"] hv
  exact ⟨hv, this.1, by decide, this.2 1 (by decide)⟩

/-! ### Sorting lemmas -/

theorem insertOrd_perm {α : Type} (le : α → α → Bool) (a : α) (l : List α) :
    (insertOrd le a l).Perm (a :: l) := by
  induction l with
  | nil => simp [insertOrd]
  | cons b bs ih =>
    simp only [insertOrd]
    by_cases hab : le a b
    · rw [if_pos hab]
    · rw [if_neg hab]
      exact (ih.cons b).trans (List.Perm.swap a b bs)

theorem sortOrd_perm {α : Type} (le : α → α → Bool) (l : List α) :
    (sortOrd le l).Perm l := by
  induction l with
  | nil => simp [sortOrd]
  | cons a as ih => exact (insertOrd_perm le a (sortOrd le as)).trans (ih.cons a)

theorem sortAsc_mem (l : List ℕ) (x : ℕ) : x ∈ sortAsc l ↔ x ∈ l :=
  (sortOrd_perm _ l).mem_iff

theorem insertOrd_sorted_le (a : ℕ) (l : List ℕ) (h : List.Sorted (· ≤ ·) l) :
    List.Sorted (· ≤ ·) (insertOrd (fun x y => decide (x ≤ y)) a l) := by
  induction l with
  | nil => simp [insertOrd]
  | cons b bs ih =>
    rw [List.sorted_cons] at h
    simp only [insertOrd]
    by_cases hab : a ≤ b
    · rw [if_pos (by simpa using hab)]
      rw [List.sorted_cons]
      refine ⟨?_, List.sorted_cons.mpr h⟩
      intro x hx
      rcases List.mem_cons.mp hx with rfl | hx
      · exact hab
      · exact hab.trans (h.1 x hx)
    · rw [if_neg (by simpa using hab)]
      rw [List.sorted_cons]
      refine ⟨?_, ih h.2⟩
      intro x hx
      rcases List.mem_cons.mp ((insertOrd_perm _ a bs).mem_iff.mp hx) with rfl | h1
      · omega
      · exact h.1 x h1

theorem sortAsc_sorted (l : List ℕ) : List.Sorted (· ≤ ·) (sortAsc l) := by
  induction l with
  | nil => simp [sortAsc, sortOrd]
  | cons a as ih => exact insertOrd_sorted_le a _ ih

theorem sortAsc_sorted_lt (l : List ℕ) (hnd : l.Nodup) :
    List.Sorted (· < ·) (sortAsc l) := by
  have hle := sortAsc_sorted l
  have hnodup : (sortAsc l).Nodup := (sortOrd_perm _ l).nodup_iff.mpr hnd
  exact (hle.and hnodup).imp (fun h => lt_of_le_of_ne h.1 h.2)

/-! ### Bucketed inverter: the merge emits only compact bucket records -/

theorem foldl_min_mem (es : List (ℕ × ℕ × List ℕ)) :
    ∀ acc, es.foldl (fun acc x => if heapKeyLt x acc then x else acc) acc ∈ acc :: es := by
  induction es with
  | nil => intro acc; simp
  | cons x xs ih =>
    intro acc
    simp only [List.foldl_cons]
    rcases List.mem_cons.mp (ih (if heapKeyLt x acc then x else acc)) with h | h
    · rw [h]
      by_cases hx : heapKeyLt x acc
      · simp [hx]
      · simp [hx]
    · simp [h]

theorem heapMin_mem (heap : List (ℕ × ℕ × List ℕ)) (e : ℕ × ℕ × List ℕ)
    (h : heapMin heap = some e) : e ∈ heap := by
  cases heap with
  | nil => simp [heapMin] at h
  | cons a es =>
    simp only [heapMin, Option.some.injEq] at h
    subst h
    exact foldl_min_mem es a

theorem mergeLoop_sub (P : ℕ × List ℕ → Prop) (fuel : ℕ) :
    ∀ (streams : List (List (ℕ × List ℕ))) (heap : List (ℕ × ℕ × List ℕ)),
      (∀ s ∈ streams, ∀ r ∈ s, P r) → (∀ en ∈ heap, P (en.1, en.2.2)) →
      ∀ r ∈ mergeLoop fuel streams heap, P r := by
  induction fuel with
  | zero =>
    intro streams heap _ _ r hr
    simp [mergeLoop] at hr
  | succ n ih =>
    intro streams heap hs hh r hr
    rw [mergeLoop] at hr
    cases hmin : heapMin heap with
    | none => rw [hmin] at hr; simp at hr
    | some e =>
      rw [hmin] at hr
      have herase : ∀ en ∈ heap.erase e, P (en.1, en.2.2) :=
        fun en hen => hh en (List.mem_of_mem_erase hen)
      rcases List.mem_cons.mp hr with h1 | h2
      · rw [h1]
        exact hh e (heapMin_mem heap e hmin)
      · cases hget : streams[e.2.1]? with
        | none =>
          rw [hget] at h2
          exact ih streams (heap.erase e) hs herase r h2
        | some s0 =>
          cases s0 with
          | nil =>
            rw [hget] at h2
            exact ih streams (heap.erase e) hs herase r h2
          | cons r0 rest =>
            rw [hget] at h2
            have hs0 : (r0 :: rest) ∈ streams := List.getElem?_mem hget
            refine ih (streams.set e.2.1 rest) ((r0.1, e.2.1, r0.2) :: heap.erase e)
              ?_ ?_ r h2
            · intro s hsmem rr hrr
              rcases List.mem_or_eq_of_mem_set hsmem with hmem | rfl
              · exact hs s hmem rr hrr
              · exact hs _ hs0 rr (List.mem_cons_of_mem r0 hrr)
            · intro en hen
              rcases List.mem_cons.mp hen with rfl | hen
              · exact hs _ hs0 r0 (List.mem_cons_self r0 rest)
              · exact herase en hen

theorem mem_forwardPairs (records : List (ℕ × List ℕ)) (t d : ℕ) :
    (t, d) ∈ forwardPairs records ↔ ∃ rec ∈ records, rec.1 = d ∧ t ∈ rec.2 := by
  simp only [forwardPairs, List.mem_flatMap, List.mem_map, Prod.mk.injEq]
  constructor
  · rintro ⟨r, hr, tk, htk, rfl, rfl⟩
    exact ⟨r, hr, rfl, htk⟩
  · rintro ⟨r, hr, hd, ht⟩
    exact ⟨r, hr, t, ht, rfl, hd.symm ▸ rfl⟩

theorem mem_docsFor (pairs : List (ℕ × ℕ)) (t d : ℕ) :
    d ∈ docsFor pairs t ↔ (t, d) ∈ pairs := by
  simp only [docsFor, List.mem_dedup, List.mem_map, List.mem_filter, decide_eq_true_eq]
  constructor
  · rintro ⟨p, ⟨hp, hpt⟩, hpd⟩
    have : p = (t, d) := by
      cases p
      simp_all
    exact this ▸ hp
  · intro h
    exact ⟨(t, d), ⟨h, rfl⟩, rfl⟩

theorem compactBucket_mem (pairs : List (ℕ × ℕ)) (td : ℕ × List ℕ)
    (h : td ∈ compactBucket pairs) :
    td.1 ∈ pairs.map Prod.fst ∧ td.2 = sortAsc (docsFor pairs td.1) := by
  simp only [compactBucket, List.mem_map] at h
  obtain ⟨t, ht, heq⟩ := h
  have h1 : td.1 = t := by rw [← heq]
  have h2 : td.2 = sortAsc (docsFor pairs t) := by rw [← heq]
  subst h1
  refine ⟨?_, h2⟩
  have : td.1 ∈ bucketTokens pairs := ht
  rw [bucketTokens, sortAsc_mem, List.mem_dedup] at this
  exact this

theorem compact_record_prop (records : List (ℕ × List ℕ)) (numBuckets b : ℕ)
    (td : ℕ × List ℕ)
    (h : td ∈ compactBucket (bucketOf numBuckets (forwardPairs records) b)) :
    List.Sorted (· < ·) td.2 ∧ td.2.Nodup ∧
      ∀ d, d ∈ td.2 ↔ ∃ rec ∈ records, rec.1 = d ∧ td.1 ∈ rec.2 := by
  obtain ⟨hmem, heq⟩ := compactBucket_mem _ _ h
  have hb : td.1 % numBuckets = b := by
    simp only [List.mem_map, bucketOf, List.mem_filter, decide_eq_true_eq] at hmem
    obtain ⟨p, ⟨_, hp⟩, hfst⟩ := hmem
    rw [← hfst]
    exact hp
  have hnodup : (docsFor (bucketOf numBuckets (forwardPairs records) b) td.1).Nodup :=
    List.nodup_dedup _
  refine ⟨heq ▸ sortAsc_sorted_lt _ hnodup,
    heq ▸ (sortOrd_perm _ _).nodup_iff.mpr hnodup, ?_⟩
  intro d
  rw [heq, sortAsc_mem, mem_docsFor, ← mem_forwardPairs]
  simp [bucketOf, List.mem_filter, hb]

/-- C1: every record that `build_inverted_index` writes into
inverted_index.bin carries a strictly ascending, deduplicated doc_id list
whose underlying set is exactly the set of doc_ids whose forward-record
token list contains that token_id. -/
theorem inverted_index_doc_lists (records : List (ℕ × List ℕ)) (numBuckets : ℕ) :
    ∀ td ∈ buildInvertedRecords records numBuckets,
      List.Sorted (· < ·) td.2 ∧ td.2.Nodup ∧
        ∀ d, d ∈ td.2 ↔ ∃ rec ∈ records, rec.1 = d ∧ td.1 ∈ rec.2 := by
  intro td htd
  simp only [buildInvertedRecords, mergeBucketStreams] at htd
  refine mergeLoop_sub
    (fun r => List.Sorted (· < ·) r.2 ∧ r.2.Nodup ∧
      ∀ d, d ∈ r.2 ↔ ∃ rec ∈ records, rec.1 = d ∧ r.1 ∈ rec.2)
    _ _ _ ?_ ?_ td htd
  · intro s hsmem r hr
    simp only [List.mem_map] at hsmem
    obtain ⟨bk, hbk, rfl⟩ := hsmem
    have hrbk : r ∈ bk := bk.tail_sublist.subset hr
    simp only [List.mem_map, List.mem_range] at hbk
    obtain ⟨b, _, rfl⟩ := hbk
    exact compact_record_prop records numBuckets b r hrbk
  · intro en hen
    simp only [List.mem_filterMap] at hen
    obtain ⟨p, hp, hmap⟩ := hen
    rw [Option.map_eq_some'] at hmap
    obtain ⟨r, hhead, rfl⟩ := hmap
    have hrp : r ∈ p.2 := List.mem_of_mem_head? (by rw [hhead]; rfl)
    obtain ⟨hlen, hp2⟩ := List.mem_enum hp
    have hp2mem : p.2 ∈ (List.range numBuckets).map
        (fun b => compactBucket (bucketOf numBuckets (forwardPairs records) b)) := by
      rw [hp2]
      exact List.getElem_mem hlen
    simp only [List.mem_map, List.mem_range] at hp2mem
    obtain ⟨b, _, hbk⟩ := hp2mem
    have := compact_record_prop records numBuckets b r (hbk ▸ hrp)
    simpa using this

set_option maxRecDepth 4000 in
/-- C1 witness: the invariant applied to the record for token 1 of a
concrete three-document forward index. -/
theorem inverted_index_doc_lists_witness :
    ((1, [0, 2]) : ℕ × List ℕ) ∈ buildInvertedRecords
        [(0, [1, 2, 3]), (1, [2, 3, 4]), (2, [1, 4, 5])] 4 ∧
      List.Sorted (· < ·) [0, 2] ∧ ([0, 2] : List ℕ).Nodup ∧
        ∀ d, d ∈ ([0, 2] : List ℕ) ↔
          ∃ rec ∈ [((0 : ℕ), [1, 2, 3]), (1, [2, 3, 4]), (2, [1, 4, 5])],
            rec.1 = d ∧ (1 : ℕ) ∈ rec.2 := by
  have hmem : ((1, [0, 2]) : ℕ × List ℕ) ∈ buildInvertedRecords
      [(0, [1, 2, 3]), (1, [2, 3, 4]), (2, [1, 4, 5])] 4 := by decide
  exact ⟨hmem,
    inverted_index_doc_lists [(0, [1, 2, 3]), (1, [2, 3, 4]), (2, [1, 4, 5])] 4
      (1, [0, 2]) hmem⟩

/-! ### Error handling of the inverter (C5) -/

theorem readU32_eq_none (bytes : List ℕ) (h : bytes.length < 4) :
    readU32 bytes = none := by
  match bytes with
  | [] => rfl
  | [_] => rfl
  | [_, _] => rfl
  | [_, _, _] => rfl
  | _ :: _ :: _ :: _ :: _ => simp only [List.length_cons] at h; omega

theorem readU32s_short (k : ℕ) : ∀ bytes : List ℕ, bytes.length < 4 * k →
    readU32s k bytes = none := by
  induction k with
  | zero => intro bytes h; omega
  | succ k ih =>
    intro bytes h
    match bytes with
    | [] => rfl
    | [_] => rfl
    | [_, _] => rfl
    | [_, _, _] => rfl
    | b0 :: b1 :: b2 :: b3 :: rest =>
      simp only [readU32s, readU32]
      rw [ih rest (by simp only [List.length_cons] at h; omega)]

theorem invReadPairs_error : ∀ bytes : List ℕ, bytes.length % 8 ≠ 0 →
    ∃ e, invReadPairs bytes = Except.error e
  | [], h => by simp at h
  | b0 :: b1 :: b2 :: b3 :: b4 :: b5 :: b6 :: b7 :: rest, h => by
    obtain ⟨e, he⟩ :=
      invReadPairs_error rest (by simp only [List.length_cons] at h ⊢; omega)
    exact ⟨e, by simp only [invReadPairs, he]⟩
  | [_], _ => ⟨"Bucket is truncated", rfl⟩
  | [_, _], _ => ⟨"Bucket is truncated", rfl⟩
  | [_, _, _], _ => ⟨"Bucket is truncated", rfl⟩
  | [_, _, _, _], _ => ⟨"Bucket is truncated", rfl⟩
  | [_, _, _, _, _], _ => ⟨"Bucket is truncated", rfl⟩
  | [_, _, _, _, _, _], _ => ⟨"Bucket is truncated", rfl⟩
  | [_, _, _, _, _, _, _], _ => ⟨"Bucket is truncated", rfl⟩

theorem readDocsStrict_skip (records : List (ℕ × List ℕ)) (h : ValidRecords records)
    (k : ℕ) (tail : List ℕ) :
    readDocsStrict (records.length + k) (records.flatMap encodeForwardRecord ++ tail) =
      match readDocsStrict k tail with
      | .error e => .error e
      | .ok rs => .ok (records ++ rs) := by
  induction records with
  | nil =>
    simp only [List.length_nil, Nat.zero_add, List.flatMap_nil, List.nil_append]
    cases readDocsStrict k tail <;> simp
  | cons r rs ih =>
    obtain ⟨hlen, hall⟩ := h
    obtain ⟨h1, h2, h3⟩ := hall r (by simp)
    simp only [List.flatMap_cons, List.length_cons, encodeForwardRecord,
      List.append_assoc]
    rw [show rs.length + 1 + k = (rs.length + k) + 1 by omega]
    simp only [readDocsStrict, readU32_le4 r.1 h1, readU32_le4 r.2.length h2,
      readU32s_flatMap_le4 r.2 h3]
    rw [ih ⟨by simp only [List.length_cons] at hlen; omega,
      fun x hx => hall x (by simp [hx])⟩]
    cases readDocsStrict k tail <;> simp

/-- C5 counterexample: the claim asserts that every bucket whose byte size
is not a multiple of eight makes the inversion abort, but the duplicated
`_compact_bucket` in source/indexer/indexing.py processes a nine-byte
bucket without any error, returning the postings of its first eight bytes
and dropping the ninth. -/
theorem indexing_compact_silent_truncation :
    (List.replicate 9 0 : List ℕ).length % 8 ≠ 0 ∧
      indexingCompactBucket (List.replicate 9 0) = [(0, [0])] := by
  constructor
  · decide
  · rfl

/-- C5 amended: in source/indexer/inverted_index.py a bucket whose size is
not a multiple of eight, a compact bucket stream that ends inside a doc_id
payload, and a forward-index header that declares more documents than the
file holds are all fatal RuntimeErrors; the duplicated `_compact_bucket`
of indexing.py (see the counterexample) is exempt. -/
theorem inverter_truncation_fatal :
    (∀ bytes : List ℕ, bytes.length % 8 ≠ 0 →
      ∃ e, invCompactBucket bytes = Except.error e) ∧
    (∀ t f : ℕ, ∀ rest : List ℕ, t < 2 ^ 32 → f < 2 ^ 32 → rest.length < 4 * f →
      readBucketRecord (le4 t ++ le4 f ++ rest) =
        Except.error "Bucket stream truncated while reading doc IDs") ∧
    (∀ records : List (ℕ × List ℕ), ∀ n : ℕ, ValidRecords records → n < 2 ^ 32 →
      records.length < n →
      ∃ e, buildInvertedShard (le4 n ++ records.flatMap encodeForwardRecord) =
        Except.error e) := by
  refine ⟨?_, ?_, ?_⟩
  · intro bytes h
    obtain ⟨e, he⟩ := invReadPairs_error bytes h
    exact ⟨e, by simp only [invCompactBucket, he]⟩
  · intro t f rest ht hf hrest
    have hne : le4 t ++ (le4 f ++ rest) ≠ [] := by simp [le4]
    simp only [readBucketRecord, List.append_assoc, if_neg hne, readU32_le4 t ht,
      readU32_le4 f hf, readU32s_short f rest hrest]
  · intro records n hvalid hn hlen
    refine ⟨"Forward index truncated while reading document header.", ?_⟩
    obtain ⟨k, hk⟩ : ∃ k, n = records.length + (k + 1) :=
      ⟨n - records.length - 1, by omega⟩
    subst hk
    rw [show records.flatMap encodeForwardRecord =
      records.flatMap encodeForwardRecord ++ [] by simp]
    simp only [buildInvertedShard, readU32_le4 _ hn,
      if_neg (show ¬(records.length + (k + 1) = 0) by omega),
      readDocsStrict_skip records hvalid (k + 1) []]
    simp only [readDocsStrict, readU32_eq_none [] (by simp)]

/-- C5 witness: the amended fatality theorem evaluated on a nine-byte
bucket, a bucket record whose declared doc_freq exceeds its payload, and a
forward index declaring two documents but containing one. -/
theorem inverter_truncation_fatal_witness :
    ((List.replicate 9 0 : List ℕ).length % 8 ≠ 0 ∧
      ∃ e, invCompactBucket (List.replicate 9 0) = Except.error e) ∧
    ((0 : ℕ) < 2 ^ 32 ∧ (1 : ℕ) < 2 ^ 32 ∧ ([] : List ℕ).length < 4 * 1 ∧
      readBucketRecord (le4 0 ++ le4 1 ++ []) =
        Except.error "Bucket stream truncated while reading doc IDs") ∧
    (ValidRecords [((0 : ℕ), [5])] ∧ (2 : ℕ) < 2 ^ 32 ∧
      ([((0 : ℕ), [5])] : List (ℕ × List ℕ)).length < 2 ∧
      ∃ e, buildInvertedShard
        (le4 2 ++ ([((0 : ℕ), [5])] : List (ℕ × List ℕ)).flatMap encodeForwardRecord) =
          Except.error e) := by
  refine ⟨⟨by decide, ?_⟩, ⟨by decide, by decide, by decide, ?_⟩,
    ⟨by decide, by decide, by decide, ?_⟩⟩
  · exact inverter_truncation_fatal.1 (List.replicate 9 0) (by decide)
  · exact inverter_truncation_fatal.2.1 0 1 [] (by decide) (by decide) (by decide)
  · exact inverter_truncation_fatal.2.2 [((0 : ℕ), [5])] 2 (by decide) (by decide) (by decide)

/-! ### Tokenizers (C2) -/

theorem tokLoop_eq (p : Char → Bool) (stop : List (List Char)) :
    ∀ (l current tokens : _), (∀ c ∈ current, p c = true) →
      tokLoop p stop l current tokens =
        tokens ++ (if current = [] then runsSpec p l
          else (current ++ l.takeWhile p) :: runsSpec p (l.dropWhile p)).filter
            (fun t => decide (t ∉ stop)) := by
  intro l
  induction l with
  | nil =>
    intro current tokens _
    by_cases hc : current = []
    · subst hc
      simp [tokLoop, flushAcc, runsSpec]
    · by_cases hs : current ∈ stop <;>
        simp [tokLoop, flushAcc, runsSpec, hc, hs, List.filter_cons]
  | cons c cs ih =>
    intro current tokens hcur
    by_cases hpc : p c = true
    · simp only [tokLoop, if_pos hpc]
      rw [ih (current ++ [c]) tokens
        (fun x hx => by
          rcases List.mem_append.mp hx with h | h
          · exact hcur x h
          · simp only [List.mem_singleton] at h; exact h ▸ hpc)]
      rw [if_neg (by simp)]
      by_cases hc : current = []
      · subst hc
        simp [runsSpec, hpc, List.takeWhile_cons_of_pos, List.dropWhile_cons_of_pos]
      · rw [if_neg hc, List.takeWhile_cons_of_pos hpc, List.dropWhile_cons_of_pos hpc]
        simp
    · simp only [tokLoop, if_neg hpc]
      rw [ih [] (flushAcc stop current tokens) (by simp)]
      rw [if_pos rfl]
      by_cases hc : current = []
      · subst hc
        simp [flushAcc, runsSpec, hpc]
      · rw [if_neg hc, List.takeWhile_cons_of_neg hpc, List.dropWhile_cons_of_neg hpc]
        have hruns : runsSpec p (c :: cs) = runsSpec p cs := by
          simp [runsSpec, hpc]
        rw [hruns]
        by_cases hs : current ∈ stop <;>
          simp [flushAcc, hc, hs, List.filter_cons]

/-- C2 auxiliary: the tokenize of source/indexer/indexing.py equals NFKC
normalization, lower-casing, maximal alphanumeric run extraction, and
stopword filtering, in that order. -/
theorem pyTokenize_eq_runs (text : List Char) (stop : List (List Char)) :
    pyTokenize text stop =
      (runsSpec pyIsAlnum (pyLower (pyNFKC text))).filter
        (fun t => decide (t ∉ stop)) := by
  rw [pyTokenize, tokLoop_eq pyIsAlnum stop _ [] [] (by simp)]
  simp

/-- C2 auxiliary: the tokenize of source/indexer/lexicon.py equals
lower-casing followed by maximal ASCII [a-z0-9] run extraction and
stopword filtering; no NFKC normalization takes place. -/
theorem lexTokenize_eq_runs (text : List Char) (stop : List (List Char)) :
    lexTokenize text stop =
      (runsSpec asciiAlnumLower (text.map pyLowerChar)).filter
        (fun t => decide (t ∉ stop)) := by
  rw [lexTokenize, tokLoop_eq asciiAlnumLower stop _ [] [] (by simp)]
  simp

/-- C2: the unified-indexer tokenize applies NFKC and lower-case folding
before emitting maximal alphanumeric runs, and on the S4 string with no
stopwords yields exactly the tokens of the claim; the lexicon-module
tokenize, which the repository's own test test_tokenize_unicode_nfkc holds
to the same behaviour, instead lower-cases without NFKC and extracts ASCII
[a-z0-9] runs, yielding different tokens on that same input. -/
theorem tokenize_nfkc_behaviour :
    (∀ text stop, pyTokenize text stop =
      (runsSpec pyIsAlnum (pyLower (pyNFKC text))).filter
        (fun t => decide (t ∉ stop))) ∧
    pyTokenize s4Text [] =
      [['å', 'n', 'g', 's', 't', 'r', 'ö', 'm'], ['1']] ∧
    lexTokenize s4Text [] = [['n', 'g', 's', 't', 'r'], ['m']] ∧
    lexTokenize s4Text [] ≠
      [['å', 'n', 'g', 's', 't', 'r', 'ö', 'm'], ['1']] := by
  exact ⟨pyTokenize_eq_runs, by decide, by decide, by decide⟩

/-! ### Barrel assigner (C3) -/

theorem insertOrd_sorted_snd (a : ℕ × ℕ) (l : List (ℕ × ℕ))
    (h : List.Pairwise (fun x y : ℕ × ℕ => x.2 ≤ y.2) l) :
    List.Pairwise (fun x y : ℕ × ℕ => x.2 ≤ y.2)
      (insertOrd (fun x y => decide (x.2 ≤ y.2)) a l) := by
  induction l with
  | nil => simp [insertOrd]
  | cons b bs ih =>
    rw [List.pairwise_cons] at h
    simp only [insertOrd]
    by_cases hab : a.2 ≤ b.2
    · rw [if_pos (by simpa using hab)]
      rw [List.pairwise_cons]
      refine ⟨?_, List.pairwise_cons.mpr h⟩
      intro x hx
      rcases List.mem_cons.mp hx with rfl | hx
      · exact hab
      · exact hab.trans (h.1 x hx)
    · rw [if_neg (by simpa using hab)]
      rw [List.pairwise_cons]
      refine ⟨?_, ih h.2⟩
      intro x hx
      rcases List.mem_cons.mp ((insertOrd_perm _ a bs).mem_iff.mp hx) with rfl | h1
      · omega
      · exact h.1 x h1

theorem sortByCount_pairwise (counts : List (ℕ × ℕ)) :
    List.Pairwise (fun x y : ℕ × ℕ => x.2 ≤ y.2) (sortByCount counts) := by
  rw [sortByCount]
  induction counts with
  | nil => simp [sortOrd]
  | cons a as ih => exact insertOrd_sorted_snd a _ ih

theorem lookup_const_map (ids : List ℕ) (v tid : ℕ) :
    List.lookup tid (ids.map (fun t => (t, v))) =
      if tid ∈ ids then some v else none := by
  induction ids with
  | nil => simp
  | cons x xs ih =>
    by_cases hx : tid = x
    · subst hx
      simp [List.lookup]
    · have hbeq : (tid == x) = false := by simp [hx]
      simp [List.lookup, hbeq, ih, hx]

theorem lookup_enumFrom_map (g : ℕ → ℕ) :
    ∀ (l : List (ℕ × ℕ)) (n i tid cnt : ℕ),
      (l.map Prod.fst).Nodup → l[i]? = some (tid, cnt) →
      List.lookup tid ((List.enumFrom n l).map (fun p => (p.2.1, g p.1))) =
        some (g (n + i)) := by
  intro l
  induction l with
  | nil => intro n i tid cnt _ hi; simp at hi
  | cons x xs ih =>
    intro n i tid cnt hnd hi
    rw [List.map_cons, List.nodup_cons] at hnd
    cases i with
    | zero =>
      simp only [List.getElem?_cons_zero, Option.some.injEq] at hi
      subst hi
      simp [List.enumFrom_cons, List.lookup]
    | succ j =>
      simp only [List.getElem?_cons_succ] at hi
      have htid : tid ∈ xs.map Prod.fst := by
        have : (tid, cnt) ∈ xs := List.getElem?_mem hi
        exact List.mem_map.mpr ⟨(tid, cnt), this, rfl⟩
      have hne : x.1 ≠ tid := fun hc => hnd.1 (by rw [hc]; exact htid)
      have hbeq : (tid == x.1) = false := by
        simp only [beq_eq_false_iff_ne, ne_eq]
        exact fun hc => hne hc.symm
      simp only [List.enumFrom_cons, List.map_cons, List.lookup, hbeq]
      rw [ih (n + 1) j tid cnt hnd.2 hi, Nat.add_right_comm, Nat.add_assoc]

/-- C3 counterexample: for the dict insertion order token 5 then token 3,
both with doc count 1 (total_docs 100, threshold 0.05, two regular
barrels), the stable sort of analyze keeps token 5 first, so analyze gives
token 3 barrel 1 while the claim's token_id tie-break predicts barrel 0. -/
theorem analyze_tiebreak_counterexample :
    (analyze 2 100 1 20 [(5, 1), (3, 1)]).lookup 3 = some 1 ∧
      (analyzeClaim 2 100 1 20 [(5, 1), (3, 1)]).lookup 3 = some 0 ∧
      some (1 : ℕ) ≠ some 0 := by
  refine ⟨by decide, by decide, by decide⟩

/-- C3 amended: analyze sends every token whose doc_freq reaches
max(1, floor(total_docs * frequent_threshold)) to the frequent barrel
numBarrels, and every remaining token, at rank i of R in ascending
doc_freq order with ties kept in the insertion order of the counts dict
(not broken by token_id), to barrel
min(numBarrels - 1, floor((i/R)^0.6 * numBarrels)). -/
theorem analyze_assignment (numBarrels totalDocs num den : ℕ)
    (counts : List (ℕ × ℕ)) (hnodup : (counts.map Prod.fst).Nodup) :
    List.Pairwise (fun a b : ℕ × ℕ => a.2 ≤ b.2)
      (analyzeRemaining totalDocs num den counts) ∧
    ∀ tid cnt, (tid, cnt) ∈ counts →
      (thresholdDocs totalDocs num den ≤ cnt →
        (analyze numBarrels totalDocs num den counts).lookup tid =
          some numBarrels) ∧
      (cnt < thresholdDocs totalDocs num den →
        ∃ i, (analyzeRemaining totalDocs num den counts)[i]? = some (tid, cnt) ∧
          (analyze numBarrels totalDocs num den counts).lookup tid =
            some (min (numBarrels - 1)
              (concaveBarrel i (analyzeRemaining totalDocs num den counts).length
                numBarrels))) := by
  have hperm : (sortByCount counts).Perm counts := sortOrd_perm _ _
  have hnodupS : ((sortByCount counts).map Prod.fst).Nodup :=
    ((hperm.map Prod.fst).nodup_iff).mpr hnodup
  have hinj := List.inj_on_of_nodup_map hnodupS
  have hfi : ∀ p ∈ sortByCount counts,
      (p.1 ∈ analyzeFrequentIds totalDocs num den counts ↔
        thresholdDocs totalDocs num den ≤ p.2) := by
    intro p hp
    constructor
    · intro hf
      simp only [analyzeFrequentIds, List.mem_map, List.mem_filter,
        decide_eq_true_eq] at hf
      obtain ⟨q, ⟨hq, hqthr⟩, hq1⟩ := hf
      have : q = p := hinj hq hp hq1
      exact this ▸ hqthr
    · intro hthr
      simp only [analyzeFrequentIds, List.mem_map, List.mem_filter,
        decide_eq_true_eq]
      exact ⟨p, ⟨hp, hthr⟩, rfl⟩
  have hrem : analyzeRemainingSrc totalDocs num den counts =
      analyzeRemaining totalDocs num den counts := by
    rw [analyzeRemainingSrc, analyzeRemaining]
    refine List.filter_congr ?_
    intro p hp
    have := hfi p hp
    by_cases hcase : thresholdDocs totalDocs num den ≤ p.2
    · simp [this.mpr hcase, hcase, Nat.not_lt_of_le hcase]
    · have : p.1 ∉ analyzeFrequentIds totalDocs num den counts :=
        fun hf => hcase (this.mp hf)
      simp [this, Nat.lt_of_not_le hcase]
  have hremnodup :
      ((analyzeRemainingSrc totalDocs num den counts).map Prod.fst).Nodup := by
    refine List.Nodup.sublist ?_ hnodupS
    exact List.Sublist.map Prod.fst (List.filter_sublist _)
  refine ⟨hrem ▸ (sortByCount_pairwise counts).filter _, ?_⟩
  intro tid cnt hmem
  have hmemS : (tid, cnt) ∈ sortByCount counts := hperm.mem_iff.mpr hmem
  constructor
  · intro hthr
    have hfid : tid ∈ analyzeFrequentIds totalDocs num den counts :=
      (hfi (tid, cnt) hmemS).mpr hthr
    rw [analyze, List.lookup_append, lookup_const_map, if_pos hfid]
    rfl
  · intro hlt
    have hnotf : tid ∉ analyzeFrequentIds totalDocs num den counts :=
      fun hf => absurd ((hfi (tid, cnt) hmemS).mp hf) (by omega)
    have hmemR : (tid, cnt) ∈ analyzeRemaining totalDocs num den counts := by
      rw [analyzeRemaining]
      exact List.mem_filter.mpr ⟨hmemS, by simpa using hlt⟩
    obtain ⟨i, hi⟩ := List.mem_iff_getElem?.mp hmemR
    refine ⟨i, hi, ?_⟩
    rw [analyze, List.lookup_append, lookup_const_map, if_neg hnotf]
    have hiSrc : (analyzeRemainingSrc totalDocs num den counts)[i]? =
        some (tid, cnt) := by rw [hrem]; exact hi
    have := lookup_enumFrom_map
      (fun r => min (numBarrels - 1)
        (concaveBarrel r (analyzeRemainingSrc totalDocs num den counts).length
          numBarrels))
      (analyzeRemainingSrc totalDocs num den counts) 0 i tid cnt hremnodup hiSrc
    simp only [List.enum] at this ⊢
    rw [this, Nat.zero_add, hrem]
    rfl

/-- C3 witness: the assignment theorem evaluated on a three-token counts
dict with total_docs 100 and threshold 1/20: token 7 (9 docs) is frequent,
token 3 (1 doc, rank 0 of 2) gets a regular barrel. -/
theorem analyze_assignment_witness :
    ((([(7, 9), (3, 1), (5, 1)] : List (ℕ × ℕ)).map Prod.fst).Nodup ∧
      ((7, 9) : ℕ × ℕ) ∈ ([(7, 9), (3, 1), (5, 1)] : List (ℕ × ℕ)) ∧
      thresholdDocs 100 1 20 ≤ 9 ∧
      (analyze 2 100 1 20 [(7, 9), (3, 1), (5, 1)]).lookup 7 = some 2) ∧
    (((3, 1) : ℕ × ℕ) ∈ ([(7, 9), (3, 1), (5, 1)] : List (ℕ × ℕ)) ∧
      1 < thresholdDocs 100 1 20 ∧
      ∃ i, (analyzeRemaining 100 1 20 [(7, 9), (3, 1), (5, 1)])[i]? = some (3, 1) ∧
        (analyze 2 100 1 20 [(7, 9), (3, 1), (5, 1)]).lookup 3 =
          some (min (2 - 1)
            (concaveBarrel i
              (analyzeRemaining 100 1 20 [(7, 9), (3, 1), (5, 1)]).length 2))) := by
  have h := analyze_assignment 2 100 1 20 [(7, 9), (3, 1), (5, 1)] (by decide)
  refine ⟨⟨by decide, by decide, by decide, ?_⟩, ⟨by decide, by decide, ?_⟩⟩
  · exact (h.2 7 9 (by decide)).1 (by decide)
  · exact (h.2 3 1 (by decide)).2 (by decide)

/-! ### Postings consolidator (C4) -/

theorem scan_invariant (rs : List (ℕ × ℕ × ℕ × List ℕ)) (t : ℕ) :
    (scanBarrels 1024 rs).diskRecs t ++ (scanBarrels 1024 rs).inmem t =
        (rs.filter (fun r => decide (r.1 = t))).map (fun r => r.2) ∧
      ((scanBarrels 1024 rs).inmem t).length =
        (rs.filter (fun r => decide (r.1 = t))).length % 1024 ∧
      (scanBarrels 1024 rs).diskCount t =
        (rs.filter (fun r => decide (r.1 = t))).length -
          (rs.filter (fun r => decide (r.1 = t))).length % 1024 ∧
      (scanBarrels 1024 rs).spillOps t =
        (rs.filter (fun r => decide (r.1 = t))).length / 1024 := by
  induction rs using List.reverseRecOn with
  | nil => simp [scanBarrels]
  | append_singleton l a ih =>
    obtain ⟨ih1, ih2, ih3, ih4⟩ := ih
    obtain ⟨tok, pay⟩ := a
    have hsc : scanBarrels 1024 (l ++ [(tok, pay)]) =
        scanStep 1024 (scanBarrels 1024 l) (tok, pay) := by
      rw [scanBarrels, scanBarrels, List.foldl_append, List.foldl_cons, List.foldl_nil]
    have hmodlt : (List.filter (fun r => decide (r.1 = t)) l).length % 1024 <
        1024 := Nat.mod_lt _ (by omega)
    by_cases htok : tok = t
    · subst htok
      have hfa : List.filter (fun r => decide (r.1 = tok)) (l ++ [(tok, pay)]) =
          List.filter (fun r => decide (r.1 = tok)) l ++ [(tok, pay)] := by
        rw [List.filter_append]
        simp [List.filter]
      rw [hsc, scanStep, hfa]
      have hlen : ((scanBarrels 1024 l).inmem tok ++ [pay]).length =
          (List.filter (fun r => decide (r.1 = tok)) l).length % 1024 + 1 := by
        simp [ih2]
      by_cases hspill :
          1024 ≤ ((scanBarrels 1024 l).inmem tok ++ [pay]).length
      · rw [if_pos hspill]
        rw [hlen] at hspill
        have hmod : (List.filter (fun r => decide (r.1 = tok)) l).length % 1024 =
            1024 - 1 := by omega
        refine ⟨?_, ?_, ?_, ?_⟩
        · simp only [eq_self_iff_true, if_true, List.map_append]
          rw [List.append_nil, ← List.append_assoc, ih1]
          simp
        · simp only [eq_self_iff_true, if_true, List.length_nil,
            List.length_append, List.length_cons]
          omega
        · simp only [eq_self_iff_true, if_true, List.length_append,
            List.length_cons, List.length_nil, ih3, ih2]
          omega
        · simp only [eq_self_iff_true, if_true, List.length_append,
            List.length_cons, List.length_nil, ih4]
          omega
      · rw [if_neg hspill]
        rw [hlen] at hspill
        refine ⟨?_, ?_, ?_, ?_⟩
        · simp only [eq_self_iff_true, if_true, List.map_append]
          rw [← List.append_assoc, ih1]
          simp
        · simp only [eq_self_iff_true, if_true, List.length_append,
            List.length_cons, List.length_nil, ih2]
          omega
        · simp only [List.length_append, List.length_cons, List.length_nil, ih3]
          omega
        · simp only [List.length_append, List.length_cons, List.length_nil, ih4]
          omega
    · have hfa : List.filter (fun r => decide (r.1 = t)) (l ++ [(tok, pay)]) =
          List.filter (fun r => decide (r.1 = t)) l := by
        rw [List.filter_append]
        simp [List.filter, htok]
      rw [hsc, scanStep, hfa]
      have hne : ¬(t = tok) := fun hc => htok hc.symm
      by_cases hspill :
          1024 ≤ ((scanBarrels 1024 l).inmem tok ++ [pay]).length
      · rw [if_pos hspill]
        simp only [if_neg hne]
        exact ⟨ih1, ih2, ih3, ih4⟩
      · rw [if_neg hspill]
        simp only [if_neg hne]
        exact ⟨ih1, ih2, ih3, ih4⟩

/-- C4: a token with exactly PER_TOKEN_THRESHOLD + 1 records across the
barrel files undergoes exactly one spill operation whose file holds
PER_TOKEN_THRESHOLD records, keeps one in-memory tail record, and its
consolidated block is the u32 count PER_TOKEN_THRESHOLD + 1 followed by
all PER_TOKEN_THRESHOLD + 1 payloads in scan order, spilled records
first. -/
theorem consolidator_threshold_plus_one (rs : List (ℕ × ℕ × ℕ × List ℕ)) (t : ℕ)
    (hcount : (rs.filter (fun r => decide (r.1 = t))).length =
      PER_TOKEN_INMEM_THRESHOLD + 1) :
    (scanBarrels PER_TOKEN_INMEM_THRESHOLD rs).spillOps t = 1 ∧
      ((scanBarrels PER_TOKEN_INMEM_THRESHOLD rs).diskRecs t).length =
        PER_TOKEN_INMEM_THRESHOLD ∧
      ((scanBarrels PER_TOKEN_INMEM_THRESHOLD rs).inmem t).length = 1 ∧
      writeBlock PER_TOKEN_INMEM_THRESHOLD rs t =
        le4 (PER_TOKEN_INMEM_THRESHOLD + 1) ++
          ((rs.filter (fun r => decide (r.1 = t))).map (fun r => r.2)).flatMap
            serializePostRec := by
  simp only [PER_TOKEN_INMEM_THRESHOLD] at *
  obtain ⟨h1, h2, h3, h4⟩ := scan_invariant rs t
  rw [hcount] at h2 h3 h4
  have h2a : ((scanBarrels 1024 rs).inmem t).length = 1 := by omega
  have h3a : (scanBarrels 1024 rs).diskCount t = 1024 := by omega
  have h4a : (scanBarrels 1024 rs).spillOps t = 1 := by omega
  have hdlen : ((scanBarrels 1024 rs).diskRecs t).length = 1024 := by
    have := congrArg List.length h1
    simp only [List.length_append, List.length_map, hcount] at this
    omega
  refine ⟨h4a, hdlen, h2a, ?_⟩
  rw [writeBlock, h2a, h3a, List.append_assoc, ← List.flatMap_append, h1]

/-- C4 witness: the spill theorem evaluated on a stream of 1025 records of
token 0. -/
theorem consolidator_threshold_plus_one_witness :
    ((List.replicate 1025 ((0 : ℕ), (7 : ℕ), (1 : ℕ), ([] : List ℕ))).filter
        (fun r => decide (r.1 = 0))).length = PER_TOKEN_INMEM_THRESHOLD + 1 ∧
      (scanBarrels PER_TOKEN_INMEM_THRESHOLD
          (List.replicate 1025 ((0 : ℕ), (7 : ℕ), (1 : ℕ), ([] : List ℕ)))).spillOps 0 = 1 ∧
      ((scanBarrels PER_TOKEN_INMEM_THRESHOLD
          (List.replicate 1025 ((0 : ℕ), (7 : ℕ), (1 : ℕ), ([] : List ℕ)))).diskRecs 0).length =
        PER_TOKEN_INMEM_THRESHOLD ∧
      ((scanBarrels PER_TOKEN_INMEM_THRESHOLD
          (List.replicate 1025 ((0 : ℕ), (7 : ℕ), (1 : ℕ), ([] : List ℕ)))).inmem 0).length = 1 ∧
      writeBlock PER_TOKEN_INMEM_THRESHOLD
          (List.replicate 1025 ((0 : ℕ), (7 : ℕ), (1 : ℕ), ([] : List ℕ))) 0 =
        le4 (PER_TOKEN_INMEM_THRESHOLD + 1) ++
          (((List.replicate 1025 ((0 : ℕ), (7 : ℕ), (1 : ℕ), ([] : List ℕ))).filter
              (fun r => decide (r.1 = 0))).map (fun r => r.2)).flatMap
            serializePostRec := by
  have hc : ((List.replicate 1025 ((0 : ℕ), (7 : ℕ), (1 : ℕ), ([] : List ℕ))).filter
      (fun r => decide (r.1 = 0))).length = PER_TOKEN_INMEM_THRESHOLD + 1 := by
    rw [List.filter_eq_self.mpr
      (fun a ha => by rw [List.eq_of_mem_replicate ha]; rfl)]
    rw [List.length_replicate, PER_TOKEN_INMEM_THRESHOLD]
  obtain ⟨w1, w2, w3, w4⟩ := consolidator_threshold_plus_one _ 0 hc
  exact ⟨hc, w1, w2, w3, w4⟩

/-! ### Ranker (C6, C10) -/

theorem bonusStep_text (h score : ℕ) (fl : Flags) (hh : h % 10 = 1) :
    bonusStep h score fl = (score, fl) := by
  simp [bonusStep, hh]

theorem applyB_cons (h : ℕ) (l : List ℕ) (score : ℕ) (fl : Flags) :
    applyB (h :: l) score fl =
      applyB l (bonusStep h score fl).1 (bonusStep h score fl).2 := rfl

theorem applyB_append (l1 l2 : List ℕ) (score : ℕ) (fl : Flags) :
    applyB (l1 ++ l2) score fl =
      applyB l2 (applyB l1 score fl).1 (applyB l1 score fl).2 := by
  simp only [applyB, List.foldl_append]

theorem applyB_score : ∀ (l : List ℕ) (score : ℕ) (fl : Flags),
    (applyB l score fl).1 = score +
      ((if fl.title = false ∧ l.any (fun h => decide (h % 10 = 0)) then 50 else 0) +
        ((if fl.url = false ∧ l.any (fun h => decide (h % 10 = 2)) then 30 else 0) +
          ((if fl.authors = false ∧ l.any (fun h => decide (h % 10 = 3)) then 20 else 0) +
            (if fl.tags = false ∧ l.any (fun h => decide (h % 10 = 5)) then 30 else 0)))) := by
  intro l
  induction l with
  | nil => intro score fl; simp [applyB]
  | cons h l ih =>
    intro score fl
    rw [applyB_cons, ih]
    by_cases h0 : h % 10 = 0
    · obtain ⟨t, u, a, g⟩ := fl
      cases t <;> simp [bonusStep, h0, List.any_cons] <;> omega
    · by_cases h2 : h % 10 = 2
      · obtain ⟨t, u, a, g⟩ := fl
        cases u <;> simp [bonusStep, h0, h2, List.any_cons] <;> omega
      · by_cases h3 : h % 10 = 3
        · obtain ⟨t, u, a, g⟩ := fl
          cases a <;> simp [bonusStep, h0, h2, h3, List.any_cons] <;> omega
        · by_cases h5 : h % 10 = 5
          · obtain ⟨t, u, a, g⟩ := fl
            cases g <;> simp [bonusStep, h0, h2, h3, h5, List.any_cons] <;> omega
          · simp [bonusStep, h0, h2, h3, h5, List.any_cons]

theorem rankLoop_backward (hits : List ℕ) :
    ∀ (i fuel score : ℕ) (fl : Flags), i < hits.length → i + 2 ≤ fuel →
      rankLoop hits fuel (i : Int) (-1) score fl =
        (applyB ((hits.take (i + 1)).reverse.takeWhile (fun h => !isText h))
          score fl).1 := by
  intro i
  induction i with
  | zero =>
    intro fuel score fl hi hfuel
    obtain ⟨f1, rfl⟩ : ∃ f1, fuel = f1 + 1 := ⟨fuel - 1, by omega⟩
    have htake : hits.take 1 = [hits[0]] := by
      rw [List.take_succ, List.getElem?_eq_getElem hi]
      rfl
    simp only [rankLoop]
    rw [if_pos (by constructor <;> omega)]
    have htn : ((0 : ℕ) : Int).toNat = 0 := rfl
    rw [htn, List.getD_eq_getElem hits 0 hi, htake]
    by_cases htext : hits[0] % 10 = 1
    · rw [if_pos htext, if_neg (by decide)]
      rw [bonusStep_text hits[0] score fl htext]
      have : (([hits[0]] : List ℕ).reverse.takeWhile (fun h => !isText h)) = [] := by
        simp [List.takeWhile, isText, htext]
      rw [this]
      rfl
    · rw [if_neg htext]
      obtain ⟨f2, rfl⟩ : ∃ f2, f1 = f2 + 1 := ⟨f1 - 1, by omega⟩
      have hstep : ((0 : ℕ) : Int) + (-1) = (-1 : Int) := by omega
      rw [hstep]
      simp only [rankLoop]
      rw [if_neg (by omega)]
      have : (([hits[0]] : List ℕ).reverse.takeWhile (fun h => !isText h)) =
          [hits[0]] := by
        simp [List.takeWhile, isText, htext]
      rw [this, applyB_cons]
      rfl
  | succ j ihj =>
    intro fuel score fl hi hfuel
    obtain ⟨f1, rfl⟩ : ∃ f1, fuel = f1 + 1 := ⟨fuel - 1, by omega⟩
    simp only [rankLoop]
    rw [if_pos (by constructor <;> omega)]
    have htn : ((j + 1 : ℕ) : Int).toNat = j + 1 := Int.toNat_natCast _
    rw [htn, List.getD_eq_getElem hits 0 hi]
    have htake : hits.take (j + 1 + 1) = hits.take (j + 1) ++ [hits[j + 1]] := by
      rw [List.take_succ, List.getElem?_eq_getElem hi]
      rfl
    have hrev : (hits.take (j + 1 + 1)).reverse =
        hits[j + 1] :: (hits.take (j + 1)).reverse := by
      rw [htake, List.reverse_append]
      rfl
    by_cases htext : hits[j + 1] % 10 = 1
    · rw [if_pos htext, if_neg (by decide)]
      rw [bonusStep_text hits[j + 1] score fl htext, hrev]
      rw [List.takeWhile_cons_of_neg (by simp [isText, htext])]
      rfl
    · rw [if_neg htext]
      have hstep : ((j + 1 : ℕ) : Int) + (-1) = ((j : ℕ) : Int) := by omega
      rw [hstep]
      rw [ihj f1 (bonusStep hits[j + 1] score fl).1 (bonusStep hits[j + 1] score fl).2
        (by omega) (by omega)]
      rw [hrev, List.takeWhile_cons_of_pos (by simp [isText, htext]), applyB_cons]

theorem rankLoop_forward (hits : List ℕ) :
    ∀ (r i fuel score : ℕ) (fl : Flags), i + r = hits.length →
      r + hits.length + 3 ≤ fuel →
      rankLoop hits fuel (i : Int) 1 score fl =
        (if (hits.drop i).any isText then
          (applyB (hits.reverse.takeWhile (fun h => !isText h))
            (applyB ((hits.drop i).takeWhile (fun h => !isText h)) score fl).1
            (applyB ((hits.drop i).takeWhile (fun h => !isText h)) score fl).2).1
        else (applyB ((hits.drop i).takeWhile (fun h => !isText h)) score fl).1) := by
  intro r
  induction r with
  | zero =>
    intro i fuel score fl hi hfuel
    obtain ⟨f1, rfl⟩ : ∃ f1, fuel = f1 + 1 := ⟨fuel - 1, by omega⟩
    simp only [rankLoop]
    rw [if_neg (by omega)]
    rw [show i = hits.length by omega, List.drop_length]
    simp [applyB]
  | succ rr ihr =>
    intro i fuel score fl hi hfuel
    have hilt : i < hits.length := by omega
    obtain ⟨f1, rfl⟩ : ∃ f1, fuel = f1 + 1 := ⟨fuel - 1, by omega⟩
    simp only [rankLoop]
    rw [if_pos (by constructor <;> omega)]
    have htn : ((i : ℕ) : Int).toNat = i := Int.toNat_natCast _
    rw [htn, List.getD_eq_getElem hits 0 hilt]
    have hdrop : hits.drop i = hits[i] :: hits.drop (i + 1) :=
      List.drop_eq_getElem_cons hilt
    by_cases htext : hits[i] % 10 = 1
    · rw [if_pos htext, if_pos trivial]
      have hcast : (hits.length : Int) - 1 = ((hits.length - 1 : ℕ) : Int) := by omega
      rw [hcast, bonusStep_text hits[i] score fl htext]
      rw [rankLoop_backward hits (hits.length - 1) f1 score fl (by omega) (by omega)]
      rw [show hits.length - 1 + 1 = hits.length by omega, List.take_length]
      have hcond : (List.drop i hits).any isText = true := by
        rw [List.any_eq_true]
        refine ⟨hits[i], ?_, ?_⟩
        · rw [hdrop]
          exact List.mem_cons_self hits[i] (List.drop (i + 1) hits)
        · simp [isText, htext]
      rw [if_pos hcond]
      rw [hdrop, List.takeWhile_cons_of_neg (by simp [isText, htext])]
      rfl
    · rw [if_neg htext]
      have hstep : ((i : ℕ) : Int) + 1 = ((i + 1 : ℕ) : Int) := by omega
      rw [hstep]
      rw [ihr (i + 1) f1 (bonusStep hits[i] score fl).1 (bonusStep hits[i] score fl).2
        (by omega) (by omega)]
      rw [hdrop,
        List.takeWhile_cons_of_pos (by simp [isText, htext]), applyB_cons,
        List.any_cons, show isText hits[i] = false from by simp [isText, htext],
        Bool.false_or]

theorem docScore_eq (hits : List ℕ) : docScore hits = docScoreSpec hits := by
  rw [docScore, show (0 : Int) = ((0 : ℕ) : Int) from rfl]
  rw [rankLoop_forward hits hits.length 0 (2 * hits.length + 4) (min hits.length 20)
    ⟨false, false, false, false⟩ (by omega) (by omega)]
  rw [List.drop_zero, docScoreSpec, scanRegion, fieldBonus]
  by_cases hany : hits.any isText
  · rw [if_pos hany, if_pos hany, ← applyB_append, applyB_score]
    simp
  · rw [if_neg hany, if_neg hany, List.append_nil, applyB_score]
    simp

/-- C6 counterexample: the hit list [1, 0, 1] has a title hit, so by the
claim its score includes the +50 title bonus, but rank_docs scores the
document 3: the directional loop turns around at the first body-text hit,
jumps to the last hit which is also body text, and never visits the
interior title hit. -/
theorem rank_docs_interior_title_counterexample :
    rank_docs [(7, [1, 0, 1])] = [(3, 7)] ∧ (3 : ℕ) < 50 :=
  ⟨by decide, by decide⟩

/-- C6 amended: rank_docs with no intersections scores each document with
min(len(hit_list), 20) as the base (all hits counted, capped at 20), plus
per-field bonuses of title +50, url +30, tags +30, authors +20, each
applied at most once, counting only field hits in the maximal non-text
prefix of the hit list and, when a body-text hit exists, the maximal
non-text suffix; the results are sorted by score descending. -/
theorem rank_docs_no_intersections (docs : List (ℕ × List ℕ)) :
    rank_docs docs = pySortDesc (docs.map (fun d => (docScoreSpec d.2, d.1))) := by
  rw [rank_docs]
  exact congrArg pySortDesc (List.map_congr_left (fun d _ => by rw [docScore_eq]))

/-- C10: is_relevant returns false on the empty list and otherwise is
true exactly when the first or the last hit is not body text; interior
hits are never inspected. -/
theorem is_relevant_first_last (hl : List ℕ) (h : hl ≠ []) :
    is_relevant hl = true ↔
      ((hl.head h) % 10 ≠ 1 ∨ (hl.getLast h) % 10 ≠ 1) := by
  cases hl with
  | nil => exact absurd rfl h
  | cons a l =>
    simp only [is_relevant, List.head_cons]
    by_cases h1 : a % 10 = 1
    · by_cases h2 : (List.getLast (a :: l) (List.cons_ne_nil a l)) % 10 = 1
      · simp [h1, h2]
      · simp [h1, h2]
    · simp [h1]

/-- C10 witness: the first/last characterization evaluated on the hit
list [1, 0, 1], whose interior title hit does not make it relevant. -/
theorem is_relevant_first_last_witness :
    (([1, 0, 1] : List ℕ) ≠ [] ∧
      (is_relevant [1, 0, 1] = true ↔
        ((([1, 0, 1] : List ℕ).head (by decide)) % 10 ≠ 1 ∨
          (([1, 0, 1] : List ℕ).getLast (by decide)) % 10 ≠ 1))) ∧
      is_relevant [1, 0, 1] = false :=
  ⟨⟨by decide, is_relevant_first_last [1, 0, 1] (by decide)⟩, by decide⟩

end Cord19
